import Mathlib

/-!
Verification development for the kookaburra single-pulse fitting package.

The development shallowly embeds the parts of the code that the
specification talks about:

* `src/likelihood.py` (`NullLikelihood`, `PulsarLikelihood`): the Gaussian
  log-likelihood sum is computed in IEEE-754 double arithmetic, where
  degenerate parameter draws produce infinities and NaNs.  We model a double
  as an `EFloat`: either an exact rational value, `+inf`, `-inf` or NaN.
  Significands are kept exact (rounding is not modelled), while the special
  values, overflow to infinity beyond the largest finite double, and
  underflow to zero below the least subnormal double are modelled
  faithfully, because the claims under study are about the special values
  only.  The finite branch of `np.log` is transcendental and is
  therefore passed in as a function parameter `logF`; every statement below
  either holds for all `logF` or fixes a concrete stand-in whose value never
  influences the finiteness structure of the result.

* `src/priors.py` (`SpikeAndSlab`, `MinimumPrior`, `update_toa_prior`):
  exact rational arithmetic; prior mappings are association lists in
  declaration order, mirroring Python dict iteration order.

* `src/data.py` (`TimeDomainData.from_array`): numpy arrays are modelled by
  their shape together with the flat list of (rational) entries.

* `src/flux.py` (`BaseFlux`, `ShapeletFlux`, `PolynomialFlux`,
  `JointFluxModel`): exact rational arithmetic, with the floating point
  exponential passed in as a function parameter `expF` (every statement holds
  for all `expF`).  Fallible evaluation (indexing an empty time array)
  returns `Option`.
-/

/-! ## IEEE-754 double specials: the `EFloat` model -/

/-- Largest finite IEEE-754 double, `(2^53 - 1) * 2^971 ≈ 1.7976931348623157e308`.
This is the value `np.nan_to_num` substitutes for `+inf`. -/
def maxFloat : ℚ := (2 ^ 53 - 1) * 2 ^ 971

/-- Smallest positive IEEE-754 double, the least subnormal
`2^-1074 ≈ 4.94e-324`: finite results of smaller magnitude underflow to
zero. -/
def minSubnormal : ℚ := 1 / 2 ^ 1074

/-- The exact rational value of the IEEE-754 double `np.pi`. -/
def npPi : ℚ := 884279719003555 / 2 ^ 48

/-- A double: an exact finite rational, an infinity, or NaN. -/
inductive EFloat where
  | finite (q : ℚ)
  | pinf
  | ninf
  | nan
deriving DecidableEq, Repr

/-- Overflow and underflow: an exact result beyond the largest finite double
becomes an infinity and one of magnitude below the least subnormal double
flushes to zero, as in IEEE-754 arithmetic.  Rounding within the
representable range is not modelled (magnitudes at or above the least
subnormal stay exact); every concrete computation below keeps a margin of
many orders of magnitude from both thresholds, so the exact rounding
convention at the boundaries is immaterial to the statements proved. -/
def clampF (q : ℚ) : EFloat :=
  if maxFloat < q then .pinf
  else if q < -maxFloat then .ninf
  else if -minSubnormal < q ∧ q < minSubnormal then .finite 0
  else .finite q

/-- IEEE negation. -/
def EFloat.neg : EFloat → EFloat
  | .finite q => .finite (-q)
  | .pinf => .ninf
  | .ninf => .pinf
  | .nan => .nan

/-- IEEE addition: NaN propagates, opposite infinities give NaN. -/
def EFloat.add : EFloat → EFloat → EFloat
  | .nan, _ => .nan
  | _, .nan => .nan
  | .pinf, .ninf => .nan
  | .ninf, .pinf => .nan
  | .pinf, _ => .pinf
  | _, .pinf => .pinf
  | .ninf, _ => .ninf
  | _, .ninf => .ninf
  | .finite a, .finite b => clampF (a + b)

/-- IEEE subtraction, as addition of the negation. -/
def EFloat.sub (a b : EFloat) : EFloat := a.add b.neg

/-- IEEE multiplication: NaN propagates, `inf * 0` is NaN, otherwise
infinities keep the sign rule. -/
def EFloat.mul : EFloat → EFloat → EFloat
  | .nan, _ => .nan
  | _, .nan => .nan
  | .pinf, .pinf => .pinf
  | .pinf, .ninf => .ninf
  | .ninf, .pinf => .ninf
  | .ninf, .ninf => .pinf
  | .pinf, .finite b => if b = 0 then .nan else if 0 < b then .pinf else .ninf
  | .finite a, .pinf => if a = 0 then .nan else if 0 < a then .pinf else .ninf
  | .ninf, .finite b => if b = 0 then .nan else if 0 < b then .ninf else .pinf
  | .finite a, .ninf => if a = 0 then .nan else if 0 < a then .ninf else .pinf
  | .finite a, .finite b => clampF (a * b)

/-- IEEE division: `0/0` is NaN, a nonzero finite over (positive) zero is a
signed infinity, `inf/inf` is NaN, a finite over an infinity is zero. -/
def EFloat.div : EFloat → EFloat → EFloat
  | .nan, _ => .nan
  | _, .nan => .nan
  | .pinf, .pinf => .nan
  | .pinf, .ninf => .nan
  | .ninf, .pinf => .nan
  | .ninf, .ninf => .nan
  | .pinf, .finite b => if b < 0 then .ninf else .pinf
  | .ninf, .finite b => if b < 0 then .pinf else .ninf
  | .finite _, .pinf => .finite 0
  | .finite _, .ninf => .finite 0
  | .finite a, .finite b =>
      if b = 0 then (if a = 0 then .nan else if 0 < a then .pinf else .ninf)
      else clampF (a / b)

/-- Squaring, as used for `x ** 2` on arrays of doubles. -/
def EFloat.sq (a : EFloat) : EFloat := a.mul a

/-- The model of `np.log` on a double.  `log 0 = -inf`, the log of a negative
number is NaN, `log (+inf) = +inf`; on positive finite input it applies the
abstract finite branch `logF`. -/
def EFloat.log (logF : ℚ → ℚ) : EFloat → EFloat
  | .nan => .nan
  | .pinf => .pinf
  | .ninf => .nan
  | .finite q => if q = 0 then .ninf else if q < 0 then .nan else .finite (logF q)

/-- The model of `np.sum` on a vector of doubles: a left fold of IEEE
addition starting from `0.0`. -/
def npSum (l : List EFloat) : EFloat := l.foldl EFloat.add (.finite 0)

/-- The model of `np.nan_to_num` with default arguments: NaN becomes `0.0`,
`+inf` becomes the largest finite double and `-inf` its negation. -/
def nanToNum : EFloat → EFloat
  | .nan => .finite 0
  | .pinf => .finite maxFloat
  | .ninf => .finite (-maxFloat)
  | .finite q => .finite q

/-! ## The Gaussian likelihoods (`src/likelihood.py`) -/

/-- The vector of per-sample terms
`-.5 * ((residual / sigma) ** 2 + np.log(2 * np.pi * sigma ** 2))`
shared verbatim by `NullLikelihood.log_likelihood` and
`PulsarLikelihood.log_likelihood`.  `y` is the stored flux data (finite
doubles) and `modelFlux` the evaluation of the model at the stored times
under the current parameter mapping. -/
def gaussianTerms (logF : ℚ → ℚ) (sigma : EFloat) (y : List ℚ)
    (modelFlux : List EFloat) : List EFloat :=
  let residual := (y.zip modelFlux).map (fun yf => EFloat.sub (.finite yf.1) yf.2)
  let logTerm := EFloat.log logF (EFloat.mul (.finite (2 * npPi)) sigma.sq)
  residual.map (fun r => EFloat.mul (.finite (-(1 / 2 : ℚ)))
    (EFloat.add ((r.div sigma).sq) logTerm))

/-- The value `log_l = np.sum(-.5 * ((residual / sigma) ** 2
+ np.log(2 * np.pi * sigma ** 2)))` computed by both likelihood classes. -/
def gaussianLogL (logF : ℚ → ℚ) (y : List ℚ) (modelFlux : List EFloat)
    (sigma : EFloat) : EFloat :=
  npSum (gaussianTerms logF sigma y modelFlux)

/-- `NullLikelihood.log_likelihood`: the raw sum `log_l` is returned as is.
The repository does not define `get_base_flux` on any flux model, so the
base-flux vector the null likelihood subtracts is taken here as an input. -/
def NullLikelihood.logLikelihood (logF : ℚ → ℚ) (y : List ℚ)
    (baseFlux : List EFloat) (sigma : EFloat) : EFloat :=
  gaussianLogL logF y baseFlux sigma

/-- `PulsarLikelihood.log_likelihood`: `return np.nan_to_num(log_l)`. -/
def PulsarLikelihood.logLikelihood (logF : ℚ → ℚ) (y : List ℚ)
    (modelFlux : List EFloat) (sigma : EFloat) : EFloat :=
  nanToNum (gaussianLogL logF y modelFlux sigma)

/-- `BaseFlux.__call__` under the likelihood's float evaluation:
`np.zeros_like(time)`. -/
def baseFluxCall (time : List ℚ) : List EFloat := time.map (fun _ => EFloat.finite 0)

/-- A concrete stand-in for the finite branch of `np.log`, used in closed
statements.  The finiteness structure of every value computed below does not
depend on which function is used here. -/
def logStub : ℚ → ℚ := fun _ => 0

/-- C1 (amended): for every parameter mapping, `PulsarLikelihood.log_likelihood`
returns `np.nan_to_num` of the Gaussian log-likelihood sum: the sum itself
when it is finite, zero when it is NaN, and the largest finite double (or its
negation) — not zero — when the sum is `+inf` (or `-inf`). -/
theorem pulsarLogLikelihood_nanToNum (logF : ℚ → ℚ) (y : List ℚ)
    (modelFlux : List EFloat) (sigma : EFloat) :
    PulsarLikelihood.logLikelihood logF y modelFlux sigma =
      match gaussianLogL logF y modelFlux sigma with
      | .nan => .finite 0
      | .pinf => .finite maxFloat
      | .ninf => .finite (-maxFloat)
      | .finite q => .finite q := by
  unfold PulsarLikelihood.logLikelihood nanToNum
  cases gaussianLogL logF y modelFlux sigma <;> rfl

/-- C1 counterexample: with data `flux = [1e200]` at a single time, a
`BaseFlux` model (identically zero) and `sigma = 1e-100`, every intermediate
stays far from the underflow threshold (`sigma ** 2 = 1e-200` is a normal
double and the log term is finite), `(residual / sigma) ** 2 = 1e600`
overflows to `+inf`, the sum is `-inf`, and the returned value is the most
negative finite double, not zero. -/
theorem pulsarLogLikelihood_neg_inf_not_zero :
    gaussianLogL logStub [(10 : ℚ) ^ 200] (baseFluxCall [0])
        (.finite ((1 : ℚ) / 10 ^ 100)) = .ninf ∧
    PulsarLikelihood.logLikelihood logStub [(10 : ℚ) ^ 200] (baseFluxCall [0])
        (.finite ((1 : ℚ) / 10 ^ 100)) = .finite (-maxFloat) ∧
    (EFloat.finite (-maxFloat) : EFloat) ≠ .finite 0 := by
  refine ⟨?_, ?_, ?_⟩ <;>
    norm_num [PulsarLikelihood.logLikelihood, nanToNum, gaussianLogL, gaussianTerms,
      npSum, EFloat.sub, EFloat.add, EFloat.neg, EFloat.mul, EFloat.div, EFloat.sq,
      EFloat.log, clampF, maxFloat, minSubnormal, npPi, baseFluxCall, logStub]

/-- C10: `NullLikelihood.log_likelihood` returns the raw Gaussian
log-likelihood sum with no non-finite coercion; concretely, at the degenerate
draw `sigma = 0` the sum is NaN and is returned as is, while
`PulsarLikelihood.log_likelihood` on the same data coerces it to zero. -/
theorem nullLogLikelihood_no_coercion :
    (∀ (logF : ℚ → ℚ) (y : List ℚ) (baseFlux : List EFloat) (sigma : EFloat),
      NullLikelihood.logLikelihood logF y baseFlux sigma =
        gaussianLogL logF y baseFlux sigma) ∧
    NullLikelihood.logLikelihood logStub [1] (baseFluxCall [0]) (.finite 0) = .nan ∧
    PulsarLikelihood.logLikelihood logStub [1] (baseFluxCall [0]) (.finite 0) =
      .finite 0 := by
  refine ⟨fun _ _ _ _ => rfl, ?_, ?_⟩ <;>
    norm_num [PulsarLikelihood.logLikelihood, NullLikelihood.logLikelihood, nanToNum,
      gaussianLogL, gaussianTerms, npSum, EFloat.sub, EFloat.add, EFloat.neg,
      EFloat.mul, EFloat.div, EFloat.sq, EFloat.log, clampF, maxFloat, minSubnormal,
      npPi, baseFluxCall, logStub]

/-! ## The spike-and-slab prior (`src/priors.py`, `SpikeAndSlab`) -/

/-- A bilby bounded uniform prior: the only slab shape `SpikeAndSlab.__init__`
accepts (any other slab raises `NotImplementedError`, which the type of
`SpikeAndSlab` below makes unrepresentable). -/
structure UniformPrior where
  minimum : ℚ
  maximum : ℚ

/-- The probability density of a bilby `Uniform` prior:
`((val >= minimum) & (val <= maximum)) / (maximum - minimum)`.  Modelled from
the bilby dependency, whose `Uniform.prob` the spike-and-slab slab defers to. -/
def UniformPrior.prob (u : UniformPrior) (val : ℚ) : ℚ :=
  (if u.minimum ≤ val ∧ val ≤ u.maximum then 1 else 0) / (u.maximum - u.minimum)

/-- `SpikeAndSlab(slab, mix)`: a spike at the slab minimum mixed with a
uniform slab. -/
structure SpikeAndSlab where
  slab : UniformPrior
  mix : ℚ

/-- The constructor sets `minimum = slab.minimum`. -/
def SpikeAndSlab.minimum (s : SpikeAndSlab) : ℚ := s.slab.minimum

/-- The constructor sets `maximum = slab.maximum`. -/
def SpikeAndSlab.maximum (s : SpikeAndSlab) : ℚ := s.slab.maximum

/-- The constructor sets `spike = minimum`. -/
def SpikeAndSlab.spike (s : SpikeAndSlab) : ℚ := s.slab.minimum

/-- `SpikeAndSlab.rescale` on a scalar:
`p = (val - mix) / (1 - mix)`, and the inverse CDF is the minimum when
`p < 0`, else `minimum + p * (maximum - minimum)`.  The bilby guard
`test_valid_for_rescaling` restricts `val` to the unit interval, which the
theorems below assume. -/
def SpikeAndSlab.rescale (s : SpikeAndSlab) (val : ℚ) : ℚ :=
  let p := (val - s.mix) / (1 - s.mix)
  if p < 0 then s.minimum else s.minimum + p * (s.maximum - s.minimum)

/-- `SpikeAndSlab.prob` on a scalar: `mix` exactly at the spike, otherwise
`(1 - mix) * slab.prob(val)`. -/
def SpikeAndSlab.prob (s : SpikeAndSlab) (val : ℚ) : ℚ :=
  if val = s.spike then s.mix else (1 - s.mix) * s.slab.prob val

/-- C2: for a spike-and-slab prior with uniform slab on `[a, b]`, `a ≤ b`,
and `mix ∈ [0, 1)`: `rescale u` is `a` when `p = (u - mix)/(1 - mix) < 0`
and `a + p * (b - a)` otherwise; `rescale 0 = a` (the spike), `rescale 1 = b`,
and `rescale` is non-decreasing. -/
theorem spikeAndSlab_rescale_spec (a b mix : ℚ) (hab : a ≤ b)
    (hmix0 : 0 ≤ mix) (hmix1 : mix < 1) :
    (∀ u, SpikeAndSlab.rescale ⟨⟨a, b⟩, mix⟩ u =
      if (u - mix) / (1 - mix) < 0 then a
      else a + (u - mix) / (1 - mix) * (b - a)) ∧
    SpikeAndSlab.rescale ⟨⟨a, b⟩, mix⟩ 0 = a ∧
    SpikeAndSlab.rescale ⟨⟨a, b⟩, mix⟩ 1 = b ∧
    (∀ u v, u ≤ v →
      SpikeAndSlab.rescale ⟨⟨a, b⟩, mix⟩ u ≤ SpikeAndSlab.rescale ⟨⟨a, b⟩, mix⟩ v) := by
  have hpos : 0 < 1 - mix := by linarith
  refine ⟨fun u => rfl, ?_, ?_, ?_⟩
  · show (if (0 - mix) / (1 - mix) < 0 then a
      else a + (0 - mix) / (1 - mix) * (SpikeAndSlab.maximum ⟨⟨a, b⟩, mix⟩ - a)) = a
    rcases eq_or_lt_of_le hmix0 with h | h
    · rw [if_neg]
      · simp [← h]
      · simp [← h]
    · rw [if_pos (div_neg_of_neg_of_pos (by linarith) hpos)]
  · show (if (1 - mix) / (1 - mix) < 0 then a
      else a + (1 - mix) / (1 - mix) * (SpikeAndSlab.maximum ⟨⟨a, b⟩, mix⟩ - a)) = b
    rw [div_self (ne_of_gt hpos), if_neg (by norm_num)]
    show a + 1 * (b - a) = b
    ring
  · intro u v huv
    have hpq : (u - mix) / (1 - mix) ≤ (v - mix) / (1 - mix) :=
      (div_le_div_iff_of_pos_right hpos).mpr (by linarith)
    show (if (u - mix) / (1 - mix) < 0 then a
        else a + (u - mix) / (1 - mix) * (b - a)) ≤
      (if (v - mix) / (1 - mix) < 0 then a
        else a + (v - mix) / (1 - mix) * (b - a))
    by_cases hu : (u - mix) / (1 - mix) < 0
    · rw [if_pos hu]
      by_cases hv : (v - mix) / (1 - mix) < 0
      · rw [if_pos hv]
      · rw [if_neg hv]
        have h0v : 0 ≤ (v - mix) / (1 - mix) := not_lt.mp hv
        nlinarith
    · have h0u : 0 ≤ (u - mix) / (1 - mix) := not_lt.mp hu
      have h0v : ¬((v - mix) / (1 - mix) < 0) := not_lt.mpr (le_trans h0u hpq)
      rw [if_neg hu, if_neg h0v]
      nlinarith [mul_le_mul_of_nonneg_right hpq (sub_nonneg.mpr hab)]

/-- C2 witness: the rescale specification instantiated on the unit slab with
`mix = 1/2`. -/
theorem spikeAndSlab_rescale_spec_witness :
    SpikeAndSlab.rescale ⟨⟨0, 1⟩, 1 / 2⟩ 0 = 0 ∧
    SpikeAndSlab.rescale ⟨⟨0, 1⟩, 1 / 2⟩ 1 = 1 := by
  have h := spikeAndSlab_rescale_spec 0 1 (1 / 2) (by norm_num) (by norm_num)
    (by norm_num)
  exact ⟨h.2.1, h.2.2.1⟩

/-- C9: for a spike-and-slab prior with uniform slab on `[a, b]`, `a ≤ b`,
and `mix ∈ [0, 1)`, the inverse CDF maps every `u ∈ [0, 1]` into `[a, b]`. -/
theorem spikeAndSlab_rescale_bounds (a b mix u : ℚ) (hab : a ≤ b)
    (hmix0 : 0 ≤ mix) (hmix1 : mix < 1) (hu0 : 0 ≤ u) (hu1 : u ≤ 1) :
    a ≤ SpikeAndSlab.rescale ⟨⟨a, b⟩, mix⟩ u ∧
    SpikeAndSlab.rescale ⟨⟨a, b⟩, mix⟩ u ≤ b := by
  have hpos : 0 < 1 - mix := by linarith
  show a ≤ (if (u - mix) / (1 - mix) < 0 then a
      else a + (u - mix) / (1 - mix) * (b - a)) ∧
    (if (u - mix) / (1 - mix) < 0 then a
      else a + (u - mix) / (1 - mix) * (b - a)) ≤ b
  by_cases hp : (u - mix) / (1 - mix) < 0
  · rw [if_pos hp]
    exact ⟨le_refl a, hab⟩
  · rw [if_neg hp]
    have h0 : 0 ≤ (u - mix) / (1 - mix) := not_lt.mp hp
    have h1 : (u - mix) / (1 - mix) ≤ 1 := by
      rw [div_le_one hpos]
      linarith
    constructor
    · nlinarith
    · nlinarith [mul_le_of_le_one_left (sub_nonneg.mpr hab) h1]

/-- C9 witness: the bounds instantiated at `a = 0`, `b = 1`, `mix = 1/2`,
`u = 3/4`. -/
theorem spikeAndSlab_rescale_bounds_witness :
    0 ≤ SpikeAndSlab.rescale ⟨⟨0, 1⟩, 1 / 2⟩ (3 / 4) ∧
    SpikeAndSlab.rescale ⟨⟨0, 1⟩, 1 / 2⟩ (3 / 4) ≤ 1 :=
  spikeAndSlab_rescale_bounds 0 1 (1 / 2) (3 / 4) (by norm_num) (by norm_num)
    (by norm_num) (by norm_num) (by norm_num)

/-- C5: for a spike-and-slab prior with uniform slab on `[a, b]` and
`mix ∈ [0, 1]`, the density at the spike `a` is exactly `mix`, and at every
`x ≠ a` it is `(1 - mix)` times the uniform slab density; spike membership is
decided by exact equality with `a`. -/
theorem spikeAndSlab_prob_spec (a b mix : ℚ) (hab : a ≤ b)
    (hmix0 : 0 ≤ mix) (hmix1 : mix ≤ 1) :
    SpikeAndSlab.prob ⟨⟨a, b⟩, mix⟩ a = mix ∧
    ∀ x, x ≠ a →
      SpikeAndSlab.prob ⟨⟨a, b⟩, mix⟩ x = (1 - mix) * UniformPrior.prob ⟨a, b⟩ x := by
  constructor
  · show (if a = a then mix else (1 - mix) * UniformPrior.prob ⟨a, b⟩ a) = mix
    rw [if_pos rfl]
  · intro x hx
    show (if x = a then mix else (1 - mix) * UniformPrior.prob ⟨a, b⟩ x) =
      (1 - mix) * UniformPrior.prob ⟨a, b⟩ x
    rw [if_neg hx]

/-- C5 witness: the density specification instantiated on the unit slab with
`mix = 1/2`, evaluated at the spike and at `x = 1/2`. -/
theorem spikeAndSlab_prob_spec_witness :
    SpikeAndSlab.prob ⟨⟨0, 1⟩, 1 / 2⟩ 0 = 1 / 2 ∧
    SpikeAndSlab.prob ⟨⟨0, 1⟩, 1 / 2⟩ (1 / 2) =
      (1 - 1 / 2) * UniformPrior.prob ⟨0, 1⟩ (1 / 2) := by
  have h := spikeAndSlab_prob_spec 0 1 (1 / 2) (by norm_num) (by norm_num) (by norm_num)
  exact ⟨h.1, h.2 (1 / 2) (by norm_num)⟩

/-! ## Time-domain data (`src/data.py`, `TimeDomainData.from_array`) -/

/-- A numpy array modelled by its shape and the flat list of entries. -/
structure NpArray where
  shape : List ℕ
  data : List ℚ

/-- The number of dimensions of an array, `arr.ndim`. -/
def NpArray.ndim (arr : NpArray) : ℕ := arr.shape.length

/-- Adjacent differences `np.diff` of a one-dimensional array's entries. -/
def npDiff1 : List ℚ → List ℚ
  | [] => []
  | [_] => []
  | a :: b :: rest => (b - a) :: npDiff1 (b :: rest)

/-- The stored result of a successful `TimeDomainData.from_array`. -/
structure TimeDomainData where
  time : NpArray
  flux : NpArray

/-- `TimeDomainData.from_array(time, flux)`: raises on mismatched shapes,
then on more than one dimension, then evaluates
`np.any(np.diff(time) < 0)` — where `np.diff` itself raises on a
zero-dimensional input — and raises on unsorted data; otherwise stores the
two arrays. -/
def TimeDomainData.fromArray (time flux : NpArray) : Except String TimeDomainData :=
  if time.shape ≠ flux.shape then
    .error "TimeDomainData only valid equal-shape arrays"
  else if 1 < time.ndim then
    .error "TimeDomainData only valid for single-dimensional data"
  else match time.shape with
    | [] => .error "diff requires input that is at least one dimensional"
    | _ =>
      if (npDiff1 time.data).any (fun d => decide (d < 0)) then
        .error "TimeDomainData requires sorted data"
      else .ok ⟨time, flux⟩

/-- C7 (amended): `from_array` succeeds exactly on equal-shape,
one-dimensional inputs whose time entries never decrease, and then stores the
two arrays unchanged; it fails with an error on mismatched shapes, more than
one dimension, unsorted time, and also on zero-dimensional input (where
`np.diff` raises even though none of the three documented conditions holds). -/
theorem fromArray_spec (time flux : NpArray) (d : TimeDomainData) :
    TimeDomainData.fromArray time flux = .ok d ↔
      (time.shape = flux.shape ∧ time.ndim = 1 ∧
        (npDiff1 time.data).all (fun x => decide (0 ≤ x)) = true ∧
        d = ⟨time, flux⟩) := by
  unfold TimeDomainData.fromArray
  by_cases hsh : time.shape = flux.shape
  · rw [if_neg (by simp [hsh])]
    by_cases hdim : 1 < time.ndim
    · rw [if_pos hdim]
      constructor
      · intro h
        exact absurd h (by simp)
      · rintro ⟨-, h1, -, -⟩
        omega
    · rw [if_neg hdim]
      match htime : time.shape with
      | [] =>
        constructor
        · intro h
          exact absurd h (by simp)
        · rintro ⟨-, h1, -, -⟩
          rw [NpArray.ndim, htime] at h1
          simp at h1
      | n :: rest =>
        have hnd : time.ndim = 1 := by
          rw [NpArray.ndim, htime]
          rw [NpArray.ndim, htime] at hdim
          simp only [List.length_cons] at hdim ⊢
          omega
        by_cases hs : (npDiff1 time.data).any (fun x => decide (x < 0)) = true
        · rw [if_pos hs]
          constructor
          · intro h
            exact absurd h (by simp)
          · rintro ⟨-, -, h2, -⟩
            rw [List.all_eq_true] at h2
            rw [List.any_eq_true] at hs
            obtain ⟨x, hx, hlt⟩ := hs
            have := h2 x hx
            simp at this hlt
            linarith
        · rw [if_neg hs]
          constructor
          · intro h
            refine ⟨htime ▸ hsh, hnd, ?_, by injection h with h2; exact h2.symm⟩
            rw [List.all_eq_true]
            intro x hx
            by_contra hneg
            refine hs (List.any_eq_true.mpr ⟨x, hx, ?_⟩)
            simp at hneg ⊢
            linarith
          · rintro ⟨-, -, -, rfl⟩
            rfl
  · rw [if_pos (by simp [hsh])]
    constructor
    · intro h
      exact absurd h (by simp)
    · rintro ⟨h0, -, -, -⟩
      exact absurd h0 hsh

/-- C7 witness: a sorted two-sample series is accepted and stored, and a
decreasing one is rejected. -/
theorem fromArray_spec_witness :
    TimeDomainData.fromArray ⟨[2], [0, 1]⟩ ⟨[2], [5, 6]⟩ =
      .ok ⟨⟨[2], [0, 1]⟩, ⟨[2], [5, 6]⟩⟩ ∧
    ¬ TimeDomainData.fromArray ⟨[2], [1, 0]⟩ ⟨[2], [5, 6]⟩ =
      .ok ⟨⟨[2], [1, 0]⟩, ⟨[2], [5, 6]⟩⟩ := by
  constructor
  · refine (fromArray_spec _ _ _).mpr ⟨rfl, rfl, ?_, rfl⟩
    norm_num [npDiff1]
  · intro h
    have := (fromArray_spec _ _ _).mp h
    have h2 := this.2.2.1
    norm_num [npDiff1] at h2

/-- C7 counterexample: for the zero-dimensional scalar arrays
`np.array(5.0)`, the shapes match, the dimension does not exceed one and the
(empty) difference vector never decreases, yet `from_array` raises a
`ValueError` from `np.diff` instead of succeeding as the claim states. -/
theorem fromArray_zero_dim :
    (NpArray.mk [] [5]).shape = (NpArray.mk [] [5]).shape ∧
    ¬ 1 < (NpArray.mk [] [5]).ndim ∧
    (npDiff1 (NpArray.mk [] [5]).data).all (fun x => decide (0 ≤ x)) = true ∧
    TimeDomainData.fromArray ⟨[], [5]⟩ ⟨[], [5]⟩ =
      .error "diff requires input that is at least one dimensional" := by
  refine ⟨rfl, by norm_num [NpArray.ndim], by norm_num [npDiff1], rfl⟩

/-! ## Arrival-time ordering priors (`src/priors.py`, `MinimumPrior` and
`update_toa_prior`) -/

/-- Whether `sub` is a leading run of `l` (character-wise). -/
def listStartsWith : List Char → List Char → Bool
  | [], _ => true
  | _ :: _, [] => false
  | a :: as, b :: bs => a == b && listStartsWith as bs

/-- Whether `sub` occurs contiguously inside `l`: the Python substring test
`sub in s`. -/
def listHasSub (sub : List Char) : List Char → Bool
  | [] => sub.isEmpty
  | l@(_ :: t) => listStartsWith sub l || listHasSub sub t

/-- The Python test `"toa" in key` selecting arrival-time keys. -/
def hasToa (key : String) : Bool := listHasSub "toa".data key.data

/-- The prior objects `update_toa_prior` reads and writes: bounded priors
exposing `minimum` and `maximum`.  `beta` is a bilby `Beta(alpha, beta)`
rescaled onto `[minimum, maximum]`; `minimumPrior` is the repository's
`MinimumPrior`, a `ConditionalBeta(alpha, beta)` on `[minimum, maximum]`
whose condition function raises the lower bound to the realized value of the
parameter named `referenceName` plus `minimumSpacing` at sample time. -/
inductive PriorSpec where
  | uniform (minimum maximum : ℚ)
  | beta (alpha bval minimum maximum : ℚ)
  | minimumPrior (alpha bval minimum maximum minimumSpacing : ℚ) (referenceName : String)
deriving DecidableEq, Repr

/-- The `minimum` attribute of a prior. -/
def PriorSpec.minimum : PriorSpec → ℚ
  | .uniform a _ => a
  | .beta _ _ a _ => a
  | .minimumPrior _ _ a _ _ _ => a

/-- The `maximum` attribute of a prior. -/
def PriorSpec.maximum : PriorSpec → ℚ
  | .uniform _ b => b
  | .beta _ _ _ b => b
  | .minimumPrior _ _ _ b _ _ => b

/-- `toa_keys = [key for key in priors if "toa" in key]`: the arrival-time
keys in declaration order. -/
def toaKeys (priors : List (String × PriorSpec)) : List String :=
  (priors.map Prod.fst).filter hasToa

/-- Whether the final character of a name is a decimal digit, i.e. whether
Python's `int(name[-1])` succeeds. -/
def digitLast (name : String) : Bool :=
  match name.data.getLast? with
  | some c => c.isDigit
  | none => false

/-- Python `int` on a single character: the digit value, or a `ValueError`. -/
def pyIntChar (c : Char) : Except String Int :=
  if c.isDigit then .ok ((c.toNat : Int) - 48)
  else .error "invalid literal for int() with base 10"

/-- `MinimumPrior.__init__` computes
`reference_name = name[:-1] + str(int(name[-1]) - 1)`, raising a `ValueError`
when the final character is not a digit (and an `IndexError` on an empty
name). -/
def minimumPriorReference (name : String) : Except String String :=
  match name.data.getLast? with
  | none => .error "string index out of range"
  | some c => do
      let d ← pyIntChar c
      .ok (name.dropRight 1 ++ toString (d - 1))

/-- The total value of `reference_name` on names whose final character is a
digit: the name with its final digit decremented (`"toa_1" ↦ "toa_0"`,
`"toa_0" ↦ "toa_-1"`). -/
def decrementName (name : String) : String :=
  match name.data.getLast? with
  | none => ""
  | some c => name.dropRight 1 ++ toString ((c.toNat : Int) - 48 - 1)

/-- The prior that replaces the `ii`-th arrival-time key (total form):
`Beta(alpha=1, beta=ntoa)` on the original bounds for the first key, and
`MinimumPrior(order=ntoa-ii, minimum_spacing=0)` on the original bounds for
each later key. -/
def updatedSpec (ntoa ii : ℕ) (key : String) (old : PriorSpec) : PriorSpec :=
  if ii = 0 then .beta 1 (ntoa : ℚ) old.minimum old.maximum
  else .minimumPrior 1 ((ntoa - ii : ℕ) : ℚ) old.minimum old.maximum 0 (decrementName key)

/-- One loop iteration of `update_toa_prior`: the replacement prior for the
`ii`-th arrival-time key, which for `ii > 0` constructs a `MinimumPrior` and
can therefore raise from `reference_name`. -/
def updateToaEntry (ntoa ii : ℕ) (key : String) (old : PriorSpec) :
    Except String PriorSpec :=
  if ii = 0 then .ok (.beta 1 (ntoa : ℚ) old.minimum old.maximum)
  else do
    let ref ← minimumPriorReference key
    .ok (.minimumPrior 1 ((ntoa - ii : ℕ) : ℚ) old.minimum old.maximum 0 ref)

/-- The loop `for ii, key in enumerate(toa_keys): priors[key] = ...` over the
mapping: each arrival-time entry is replaced in place, with `ii` counting the
arrival-time entries encountered so far. -/
def updateEntries (ntoa : ℕ) : ℕ → List (String × PriorSpec) →
    Except String (List (String × PriorSpec))
  | _, [] => .ok []
  | ii, kv :: rest =>
    if hasToa kv.1 then do
      let spec ← updateToaEntry ntoa ii kv.1 kv.2
      let tail ← updateEntries ntoa (ii + 1) rest
      .ok ((kv.1, spec) :: tail)
    else do
      let tail ← updateEntries ntoa ii rest
      .ok (kv :: tail)

/-- `update_toa_prior(priors)`: a no-op when exactly one arrival-time key
exists, otherwise the enumerate loop above. -/
def update_toa_prior (priors : List (String × PriorSpec)) :
    Except String (List (String × PriorSpec)) :=
  if (toaKeys priors).length = 1 then .ok priors
  else updateEntries (toaKeys priors).length 0 priors

/-- The successful result of the loop, in total form. -/
def updatedEntries (ntoa : ℕ) : ℕ → List (String × PriorSpec) →
    List (String × PriorSpec)
  | _, [] => []
  | ii, kv :: rest =>
    if hasToa kv.1 then
      (kv.1, updatedSpec ntoa ii kv.1 kv.2) :: updatedEntries ntoa (ii + 1) rest
    else kv :: updatedEntries ntoa ii rest

/-- `MinimumPrior.minimum_condition(reference_params, **kwargs)` returns
`dict(minimum=kwargs[self.reference_name] + self.minimum_spacing)`: the
effective lower bound of the prior at sample time, given the realized values
of the other parameters (`none` models the `KeyError` when the reference
parameter is absent, and `none` on non-conditional priors the absence of a
condition function). -/
def minimumCondition (spec : PriorSpec) (values : List (String × ℚ)) : Option ℚ :=
  match spec with
  | .minimumPrior _ _ _ _ spacing ref => (values.lookup ref).map (fun m => m + spacing)
  | _ => none

/-- Binding a successful `Except` computation applies the continuation. -/
theorem exceptBindOk {α β ε : Type} (x : α) (f : α → Except ε β) :
    (Except.ok x >>= f) = f x := rfl

/-- Binding a failed `Except` computation propagates the error. -/
theorem exceptBindErr {α β ε : Type} (e : ε) (f : α → Except ε β) :
    ((Except.error e : Except ε α) >>= f) = Except.error e := rfl

/-- A name with a digit final character yields the decremented reference. -/
theorem digitLast_reference (name : String) (h : digitLast name = true) :
    minimumPriorReference name = .ok (decrementName name) := by
  unfold digitLast at h
  unfold minimumPriorReference decrementName
  cases hc : name.data.getLast? with
  | none => rw [hc] at h; simp at h
  | some c =>
    rw [hc] at h
    have h2 : c.isDigit = true := h
    simp [pyIntChar, h2, exceptBindOk]

/-- Inversion: a successful reference name means the final character is a
digit and the result is the decremented name. -/
theorem reference_ok_inv (name s : String)
    (h : minimumPriorReference name = .ok s) :
    digitLast name = true ∧ s = decrementName name := by
  unfold minimumPriorReference at h
  cases hc : name.data.getLast? with
  | none => rw [hc] at h; simp at h
  | some c =>
    rw [hc] at h
    have h2 : (do
        let d ← pyIntChar c
        Except.ok (name.dropRight 1 ++ toString (d - 1)) : Except String String) =
        Except.ok s := h
    by_cases hd : c.isDigit
    · refine ⟨by simp [digitLast, hc, hd], ?_⟩
      unfold pyIntChar at h2
      rw [if_pos hd, exceptBindOk] at h2
      injection h2 with h2
      simp [decrementName, hc]
      exact h2.symm
    · unfold pyIntChar at h2
      rw [if_neg hd, exceptBindErr] at h2
      simp at h2

/-- One loop entry succeeds and produces `updatedSpec` whenever either it is
the first arrival-time entry or its key ends in a digit. -/
theorem updateToaEntry_eq (ntoa ii : ℕ) (key : String) (old : PriorSpec)
    (hd : 0 < ii → digitLast key = true) :
    updateToaEntry ntoa ii key old = .ok (updatedSpec ntoa ii key old) := by
  unfold updateToaEntry updatedSpec
  by_cases h0 : ii = 0
  · simp [h0]
  · rw [if_neg h0, if_neg h0, digitLast_reference key (hd (Nat.pos_of_ne_zero h0))]
    rfl

/-- The arrival-time keys are the keys of the arrival-time entries. -/
theorem toaKeys_eq_map_filter (priors : List (String × PriorSpec)) :
    toaKeys priors = (priors.filter (fun kv => hasToa kv.1)).map Prod.fst := by
  unfold toaKeys
  rw [List.filter_map]
  rfl

/-- The loop succeeds, producing `updatedEntries`: for a counter already past
zero every arrival-time key must end in a digit, while for a fresh counter
the first arrival-time key is exempt. -/
theorem updateEntries_ok (ntoa : ℕ) :
    ∀ (priors : List (String × PriorSpec)) (ii : ℕ),
      (0 < ii → ∀ k ∈ toaKeys priors, digitLast k = true) →
      (ii = 0 → ∀ k ∈ (toaKeys priors).drop 1, digitLast k = true) →
      updateEntries ntoa ii priors = .ok (updatedEntries ntoa ii priors) := by
  intro priors
  induction priors with
  | nil => intro ii hall hdrop; rfl
  | cons kv rest ih =>
    intro ii hall hdrop
    by_cases ht : hasToa kv.1 = true
    · have hkeys : toaKeys (kv :: rest) = kv.1 :: toaKeys rest := by
        simp [toaKeys, List.filter_cons, ht]
      have hhead : updateToaEntry ntoa ii kv.1 kv.2 =
          .ok (updatedSpec ntoa ii kv.1 kv.2) := by
        refine updateToaEntry_eq ntoa ii kv.1 kv.2 (fun hii => ?_)
        refine hall hii kv.1 ?_
        rw [hkeys]
        exact List.mem_cons_self kv.1 (toaKeys rest)
      have htail : updateEntries ntoa (ii + 1) rest =
          .ok (updatedEntries ntoa (ii + 1) rest) := by
        refine ih (ii + 1) (fun _ k hk => ?_) (fun habs => by omega)
        rcases Nat.eq_zero_or_pos ii with h0 | hpos
        · refine hdrop h0 k ?_
          rw [hkeys]
          simpa using hk
        · refine hall hpos k ?_
          rw [hkeys]
          exact List.mem_cons_of_mem kv.1 hk
      simp [updateEntries, ht, hhead, htail, updatedEntries, exceptBindOk]
    · have hkeys : toaKeys (kv :: rest) = toaKeys rest := by
        simp [toaKeys, List.filter_cons, ht]
      have htail : updateEntries ntoa ii rest =
          .ok (updatedEntries ntoa ii rest) := by
        refine ih ii (fun hpos k hk => hall hpos k ?_) (fun h0 k hk => hdrop h0 k ?_)
        · rw [hkeys]; exact hk
        · rw [hkeys]; exact hk
      simp [updateEntries, ht, htail, updatedEntries, exceptBindOk]

/-- The value stored at the `j`-th arrival-time key after the loop is the
`updatedSpec` for counter `ii + j`, provided the keys are distinct (as they
always are, coming from a Python dict). -/
theorem updatedEntries_lookup (ntoa : ℕ) :
    ∀ (priors : List (String × PriorSpec)),
      (priors.map Prod.fst).Nodup →
      ∀ (ii j : ℕ) (hj : j < (toaKeys priors).length) (v : PriorSpec),
        priors.lookup ((toaKeys priors)[j]) = some v →
        (updatedEntries ntoa ii priors).lookup ((toaKeys priors)[j]) =
          some (updatedSpec ntoa (ii + j) ((toaKeys priors)[j]) v) := by
  intro priors
  induction priors with
  | nil =>
    intro _ ii j hj
    simp [toaKeys] at hj
  | cons kv rest ih =>
    obtain ⟨k1, k2⟩ := kv
    intro hnd ii j hj v hv
    rw [List.map_cons, List.nodup_cons] at hnd
    obtain ⟨hknotin, hndr⟩ := hnd
    by_cases ht : hasToa k1 = true
    · have hkeys : toaKeys ((k1, k2) :: rest) = k1 :: toaKeys rest := by
        simp [toaKeys, List.filter_cons, ht]
      simp only [hkeys] at hj hv ⊢
      cases j with
      | zero =>
        simp only [List.getElem_cons_zero] at hv ⊢
        have hv2 : k2 = v := by
          simp [List.lookup] at hv
          exact hv
        subst hv2
        simp [updatedEntries, ht, List.lookup]
      | succ jj =>
        simp only [List.getElem_cons_succ] at hv ⊢
        have hjr : jj < (toaKeys rest).length := by simpa using hj
        have hmem : (toaKeys rest)[jj] ∈ toaKeys rest := List.getElem_mem hjr
        have hmem2 : (toaKeys rest)[jj] ∈ rest.map Prod.fst :=
          List.mem_of_mem_filter hmem
        have hne : (toaKeys rest)[jj] ≠ k1 := by
          intro he
          exact hknotin (he ▸ hmem2)
        have hbne : ((toaKeys rest)[jj] == k1) = false := beq_eq_false_iff_ne.mpr hne
        rw [List.lookup, hbne] at hv
        rw [updatedEntries, if_pos ht, List.lookup, hbne]
        have harith : ii + (jj + 1) = ii + 1 + jj := by omega
        rw [harith]
        exact ih hndr (ii + 1) jj hjr v hv
    · have hkeys : toaKeys ((k1, k2) :: rest) = toaKeys rest := by
        simp [toaKeys, List.filter_cons, ht]
      simp only [hkeys] at hj hv ⊢
      have hmem : (toaKeys rest)[j] ∈ toaKeys rest := List.getElem_mem hj
      have htoa : hasToa ((toaKeys rest)[j]) = true :=
        List.of_mem_filter hmem
      have hne : (toaKeys rest)[j] ≠ k1 := by
        intro he
        rw [he] at htoa
        exact ht htoa
      have hbne : ((toaKeys rest)[j] == k1) = false := beq_eq_false_iff_ne.mpr hne
      rw [List.lookup, hbne] at hv
      rw [updatedEntries, if_neg ht, List.lookup, hbne]
      exact ih hndr ii j hj v hv

/-- An element of `l.drop 1` sits at some index `i + 1` of `l`. -/
theorem memDropOne {α : Type} (l : List α) (k : α) (hk : k ∈ l.drop 1) :
    ∃ i, ∃ (hi : i + 1 < l.length), l[i + 1] = k := by
  obtain ⟨n, hn, he⟩ := List.mem_iff_getElem.mp hk
  have hlen : n < l.length - 1 := by simpa using hn
  refine ⟨n, by omega, ?_⟩
  rw [← he, List.getElem_drop]
  congr 1
  omega

/-- C4 (amended): `update_toa_prior` is a no-op when exactly one key contains
"toa"; with `N ≥ 2` arrival-time keys whose non-first keys each end in a
decimal digit (otherwise `MinimumPrior.__init__` raises a `ValueError` from
`int(name[-1])`), it returns the mapping in which the first arrival-time key
(in declaration order) carries `Beta(alpha=1, beta=N)` on its original
bounds, and the `i`-th subsequent arrival-time key carries the conditional
Beta `MinimumPrior` with `alpha=1`, `beta=N-i` on its original bounds. -/
theorem updateToaPrior_spec (priors : List (String × PriorSpec)) :
    ((toaKeys priors).length = 1 → update_toa_prior priors = .ok priors) ∧
    ((priors.map Prod.fst).Nodup → 2 ≤ (toaKeys priors).length →
      (∀ k ∈ (toaKeys priors).drop 1, digitLast k = true) →
      update_toa_prior priors =
        .ok (updatedEntries (toaKeys priors).length 0 priors) ∧
      ∀ i (hi : i < (toaKeys priors).length) (v : PriorSpec),
        priors.lookup ((toaKeys priors)[i]) = some v →
        (updatedEntries (toaKeys priors).length 0 priors).lookup
            ((toaKeys priors)[i]) =
          some (if i = 0 then
              PriorSpec.beta 1 ((toaKeys priors).length : ℚ) v.minimum v.maximum
            else
              PriorSpec.minimumPrior 1 (((toaKeys priors).length - i : ℕ) : ℚ)
                v.minimum v.maximum 0 (decrementName ((toaKeys priors)[i])))) := by
  constructor
  · intro h1
    unfold update_toa_prior
    rw [if_pos h1]
  · intro hnd h2 hdig
    have hupd : update_toa_prior priors =
        .ok (updatedEntries (toaKeys priors).length 0 priors) := by
      unfold update_toa_prior
      rw [if_neg (by omega)]
      exact updateEntries_ok (toaKeys priors).length priors 0
        (fun habs => absurd habs (by omega)) (fun _ => hdig)
    refine ⟨hupd, fun i hi v hv => ?_⟩
    rw [updatedEntries_lookup (toaKeys priors).length priors hnd 0 i hi v hv]
    unfold updatedSpec
    rw [Nat.zero_add]

/-- C4 witness: two arrival-time keys `toa_0`, `toa_1` on bounds `[0,1]` and
`[2,3]` become `Beta(1, 2)` on `[0,1]` and `MinimumPrior` with `beta = 1` on
`[2,3]` referencing `toa_0`. -/
theorem updateToaPrior_spec_witness :
    update_toa_prior [("toa_0", PriorSpec.uniform 0 1), ("toa_1", PriorSpec.uniform 2 3)] =
      .ok [("toa_0", PriorSpec.beta 1 2 0 1),
           ("toa_1", PriorSpec.minimumPrior 1 1 2 3 0 "toa_0")] := by
  have h := ((updateToaPrior_spec
      [("toa_0", PriorSpec.uniform 0 1), ("toa_1", PriorSpec.uniform 2 3)]).2
    (by decide) (by decide) (by decide)).1
  rw [h]
  rfl

/-- C4 counterexample: the mapping with the two arrival-time keys `xtoa` and
`ytoa` (neither ending in a digit) has `N = 2 ≥ 2`, yet `update_toa_prior`
raises a `ValueError` instead of returning the replaced mapping the claim
describes. -/
theorem updateToaPrior_nondigit_raises :
    2 ≤ (toaKeys [("xtoa", PriorSpec.uniform 0 1), ("ytoa", PriorSpec.uniform 0 1)]).length ∧
    update_toa_prior [("xtoa", PriorSpec.uniform 0 1), ("ytoa", PriorSpec.uniform 0 1)] =
      .error "invalid literal for int() with base 10" := by
  exact ⟨by decide, rfl⟩

/-- C3 (amended): in the mapping produced by `update_toa_prior` for `N ≥ 2`
arrival-time keys, each arrival-time key after the first carries a
`MinimumPrior` whose effective lower bound at sample time is the realized
value of the parameter named by decrementing the key's final digit, plus the
`minimum_spacing` of zero.  When the keys are consecutively numbered — so
that the decremented name is exactly the immediately preceding arrival-time
key, as hypothesis `href` states — that bound is the realized value of the
immediately preceding arrival-time parameter. -/
theorem updateToaPrior_conditional_lower_bound (priors : List (String × PriorSpec))
    (hnd : (priors.map Prod.fst).Nodup)
    (h2 : 2 ≤ (toaKeys priors).length)
    (href : ∀ i (hi : i + 1 < (toaKeys priors).length),
      minimumPriorReference ((toaKeys priors)[i + 1]) =
        .ok ((toaKeys priors)[i])) :
    update_toa_prior priors = .ok (updatedEntries (toaKeys priors).length 0 priors) ∧
    ∀ i (hi : i + 1 < (toaKeys priors).length) (v : PriorSpec)
      (values : List (String × ℚ)) (w : ℚ),
      priors.lookup ((toaKeys priors)[i + 1]) = some v →
      values.lookup ((toaKeys priors)[i]) = some w →
      ∃ spec, (updatedEntries (toaKeys priors).length 0 priors).lookup
          ((toaKeys priors)[i + 1]) = some spec ∧
        minimumCondition spec values = some w := by
  have hdig : ∀ k ∈ (toaKeys priors).drop 1, digitLast k = true := by
    intro k hk
    obtain ⟨i, hi, he⟩ := memDropOne (toaKeys priors) k hk
    have := (reference_ok_inv _ _ (href i hi)).1
    rw [← he]
    exact this
  have hupd : update_toa_prior priors =
      .ok (updatedEntries (toaKeys priors).length 0 priors) := by
    unfold update_toa_prior
    rw [if_neg (by omega)]
    exact updateEntries_ok (toaKeys priors).length priors 0
      (fun habs => absurd habs (by omega)) (fun _ => hdig)
  refine ⟨hupd, fun i hi v values w hv hw => ?_⟩
  obtain ⟨hdigi, hdec⟩ := reference_ok_inv _ _ (href i hi)
  refine ⟨updatedSpec (toaKeys priors).length (0 + (i + 1)) ((toaKeys priors)[i + 1]) v,
    updatedEntries_lookup (toaKeys priors).length priors hnd 0 (i + 1) hi v hv, ?_⟩
  unfold updatedSpec
  rw [if_neg (by omega)]
  show (values.lookup (decrementName ((toaKeys priors)[i + 1]))).map (fun m => m + 0) =
    some w
  rw [← hdec, hw]
  simp

/-- C3 witness: the conditional lower bound evaluated on the consecutively
numbered keys `toa_0`, `toa_1` with realized `toa_0 = 1/2`. -/
theorem updateToaPrior_conditional_lower_bound_witness :
    ∃ spec,
      (updatedEntries 2 0 [("toa_0", PriorSpec.uniform 0 1),
          ("toa_1", PriorSpec.uniform 0 1)]).lookup "toa_1" = some spec ∧
      minimumCondition spec [("toa_0", (1 : ℚ) / 2)] = some ((1 : ℚ) / 2) := by
  have h := (updateToaPrior_conditional_lower_bound
      [("toa_0", PriorSpec.uniform 0 1), ("toa_1", PriorSpec.uniform 0 1)]
      (by decide) (by decide) ?_).2 0 (by decide) (PriorSpec.uniform 0 1)
      [("toa_0", (1 : ℚ) / 2)] ((1 : ℚ) / 2) (by rfl) (by rfl)
  · exact h
  · intro i hi
    have hlt : i + 1 < 2 := hi
    have h0 : i = 0 := by omega
    subst h0
    rfl

/-- C3 counterexample: with the two arrival-time keys `toa_0` and `toa_2`
(not consecutively numbered), the second key's `MinimumPrior` references the
nonexistent parameter `toa_1`, so its effective lower bound at sample time is
a `KeyError` (`none`), not the realized value `1/2` of the immediately
preceding arrival-time parameter `toa_0`. -/
theorem updateToaPrior_nonconsecutive_reference :
    update_toa_prior [("toa_0", PriorSpec.uniform 0 1), ("toa_2", PriorSpec.uniform 0 1)] =
      .ok [("toa_0", PriorSpec.beta 1 2 0 1),
           ("toa_2", PriorSpec.minimumPrior 1 1 0 1 0 "toa_1")] ∧
    minimumCondition (PriorSpec.minimumPrior 1 1 0 1 0 "toa_1")
      [("toa_0", (1 : ℚ) / 2), ("toa_2", (7 : ℚ) / 10)] = none ∧
    (none : Option ℚ) ≠ some ((1 : ℚ) / 2 + 0) := by
  refine ⟨rfl, rfl, by simp⟩

/-! ## Flux models (`src/flux.py`) -/

/-- The physicists' Hermite polynomials, the basis evaluated by
`np.polynomial.hermite.Hermite`. -/
def hermiteH : ℕ → ℚ → ℚ
  | 0, _ => 1
  | 1, x => 2 * x
  | n + 2, x => 2 * x * hermiteH (n + 1) x - 2 * ((n : ℚ) + 1) * hermiteH n x

/-- The tail of a Hermite expansion starting at basis index `k`. -/
def hermiteSum : ℕ → List ℚ → ℚ → ℚ
  | _, [], _ => 0
  | k, c :: cs, x => c * hermiteH k x + hermiteSum (k + 1) cs x

/-- `np.polynomial.hermite.Hermite(coefs)(x)`: the Hermite series
`sum_i coefs_i * H_i(x)`. -/
def hermiteSeries (coefs : List ℚ) (x : ℚ) : ℚ := hermiteSum 0 coefs x

/-- The coefficient keys `[f"{basename}{ii}" for ii in range(n_shapelets)]`
of a `ShapeletFlux`. -/
def shapeletKeys (basename : String) (n : ℕ) : List String :=
  (List.range n).map (fun i => basename ++ toString i)

/-- `ShapeletFlux.__call__`: `x = (time - toa) / beta`, then
`exp(-(x ** 2)) * Hermite(coefs)(x)` elementwise.  The floating-point
exponential is the abstract parameter `expF`. -/
def shapeletCall (expF : ℚ → ℚ) (keys : List String) (time : List ℚ)
    (p : String → ℚ) : List ℚ :=
  time.map (fun t =>
    let x := (t - p "toa") / p "beta"
    expF (-(x ^ 2)) * hermiteSeries (keys.map p) x)

/-- `np.poly1d(coeffs[::-1])(z)` for lowest-degree-first `coeffs`:
`sum_i coeffs_i * z^i`, in Horner form. -/
def polyval : List ℚ → ℚ → ℚ
  | [], _ => 0
  | c :: cs, z => c + z * polyval cs z

/-- `PolynomialFlux.__call__`: the polynomial evaluated at
`time - 0.5 * (time[0] + time[-1])`; indexing `time[0]` raises on an empty
time array. -/
def polyCall (keys : List String) (time : List ℚ) (p : String → ℚ) :
    Option (List ℚ) :=
  match time with
  | [] => none
  | t0 :: rest =>
      let midtime := (1 / 2 : ℚ) * (t0 + (t0 :: rest).getLast (List.cons_ne_nil t0 rest))
      some ((t0 :: rest).map (fun t => polyval (keys.map p) (t - midtime)))

/-- The leaf flux models: the `BaseFlux` zero model, a `ShapeletFlux` with
its coefficient keys, and a `PolynomialFlux` with its coefficient keys. -/
inductive FluxAtom where
  | base
  | shapelet (keys : List String)
  | poly (keys : List String)
deriving DecidableEq, Repr

/-- Evaluation of one leaf model at a time array under a parameter mapping:
`BaseFlux.__call__` returns `np.zeros_like(time)`. -/
def FluxAtom.call : FluxAtom → (ℚ → ℚ) → List ℚ → (String → ℚ) → Option (List ℚ)
  | .base, _, time, _ => some (time.map (fun _ => 0))
  | .shapelet keys, expF, time, p => some (shapeletCall expF keys time p)
  | .poly keys, _, time, p => polyCall keys time p

/-- `JointFluxModel`: the flattened ordered collection `self.models` of leaf
models built by the constructor. -/
structure JointFluxModel where
  models : List FluxAtom
deriving DecidableEq, Repr

/-- An argument acceptable to `JointFluxModel.__init__` or `__add__`: a leaf
model or an already-joint model (anything else raises `ValueError`, which
this type makes unrepresentable). -/
inductive FluxOperand where
  | single (a : FluxAtom)
  | joint (m : JointFluxModel)

/-- The models an operand contributes: a leaf is appended, a joint model is
flattened into its children. -/
def FluxOperand.models : FluxOperand → List FluxAtom
  | .single a => [a]
  | .joint m => m.models

/-- `JointFluxModel(flux_model_A, flux_model_B)`: concatenates the two
operands' model lists. -/
def mkJointFluxModel (A B : FluxOperand) : JointFluxModel :=
  ⟨A.models ++ B.models⟩

/-- `JointFluxModel.__add__(flux_model)`. -/
def JointFluxModel.addFlux (m : JointFluxModel) (b : FluxOperand) : JointFluxModel :=
  mkJointFluxModel (.joint m) b

/-- `fluxes = [model(time, **kwargs) for model in self.models]`: the
children's evaluations in order, the first failure propagating. -/
def atomCalls (expF : ℚ → ℚ) (models : List FluxAtom) (time : List ℚ)
    (p : String → ℚ) : Option (List (List ℚ)) :=
  match models with
  | [] => some []
  | a :: rest => do
      let f ← a.call expF time p
      let fs ← atomCalls expF rest time p
      some (f :: fs)

/-- `np.sum(fluxes, axis=0)` on a nonempty collection of equal-length rows:
the elementwise sum.  The `[]` case cannot arise from a constructed
`JointFluxModel`, whose model list always has at least two entries. -/
def sumAxis0 : List (List ℚ) → List ℚ
  | [] => []
  | [l] => l
  | l :: ls => List.zipWith (fun a b => a + b) l (sumAxis0 ls)

/-- `JointFluxModel.__call__`: evaluate every child, then sum elementwise. -/
def JointFluxModel.call (m : JointFluxModel) (expF : ℚ → ℚ) (time : List ℚ)
    (p : String → ℚ) : Option (List ℚ) :=
  (atomCalls expF m.models time p).map sumAxis0

/-- A Hermite expansion with all-zero coefficients vanishes. -/
theorem hermiteSum_zero (x : ℚ) :
    ∀ (cs : List ℚ) (k : ℕ), (∀ c ∈ cs, c = 0) → hermiteSum k cs x = 0 := by
  intro cs
  induction cs with
  | nil => intro k _; rfl
  | cons c rest ih =>
    intro k hz
    have hc : c = 0 := hz c (List.mem_cons_self c rest)
    have hr := ih (k + 1) (fun d hd => hz d (List.mem_cons_of_mem c hd))
    show c * hermiteH k x + hermiteSum (k + 1) rest x = 0
    rw [hc, hr]
    ring

/-- C8: a `ShapeletFlux` whose parameters set `C0 = 1` and every higher
coefficient to zero evaluates, at every time sample, to the pure Gaussian
`exp(-((t - toa) / beta)^2)` (with `expF` the floating-point exponential). -/
theorem shapeletFlux_gaussian_reduction (expF : ℚ → ℚ) (n : ℕ) (time : List ℚ)
    (p : String → ℚ) (hn : 1 ≤ n) (hbeta : p "beta" ≠ 0) (hc0 : p "C0" = 1)
    (hci : ∀ i, 1 ≤ i → i < n → p ("C" ++ toString i) = 0) :
    shapeletCall expF (shapeletKeys "C" n) time p =
      time.map (fun t => expF (-(((t - p "toa") / p "beta") ^ 2))) := by
  unfold shapeletCall
  refine List.map_congr_left (fun t ht => ?_)
  have hser : hermiteSeries ((shapeletKeys "C" n).map p) ((t - p "toa") / p "beta") = 1 := by
    obtain ⟨m, rfl⟩ : ∃ m, n = m + 1 := ⟨n - 1, by omega⟩
    rw [shapeletKeys, List.range_succ_eq_map]
    simp only [List.map_cons, List.map_map]
    show hermiteSum 0 (p ("C" ++ toString 0) ::
      (List.range m).map (fun i => p ("C" ++ toString (Nat.succ i))))
      ((t - p "toa") / p "beta") = 1
    rw [hermiteSum]
    have hc0e : p ("C" ++ toString 0) = 1 := hc0
    rw [hc0e]
    rw [hermiteSum_zero _ _ 1 (fun c hc => ?_), hermiteH]
    · ring
    · obtain ⟨j, hj, he⟩ := List.mem_map.mp hc
      rw [← he]
      exact hci (j + 1) (by omega) (by
        have := List.mem_range.mp hj
        omega)
  show expF (-(((t - p "toa") / p "beta") ^ 2)) *
      hermiteSeries ((shapeletKeys "C" n).map p) ((t - p "toa") / p "beta") =
    expF (-(((t - p "toa") / p "beta") ^ 2))
  rw [hser, mul_one]

/-- The parameter mapping used to witness the Gaussian reduction:
`C0 = 1`, `beta = 1`, every other parameter zero. -/
def shapeletWitnessParams : String → ℚ :=
  fun s => if s = "C0" then 1 else if s = "beta" then 1 else 0

/-- C8 witness: the Gaussian reduction instantiated with two shapelets,
`C0 = 1`, `C1 = 0`, `beta = 1`, at the single time sample `0`. -/
theorem shapeletFlux_gaussian_reduction_witness :
    shapeletCall (fun q => q) (shapeletKeys "C" 2) [0] shapeletWitnessParams =
      [(0 : ℚ)].map (fun t => (fun q => q)
        (-(((t - shapeletWitnessParams "toa") / shapeletWitnessParams "beta") ^ 2))) := by
  refine shapeletFlux_gaussian_reduction (fun q => q) 2 [0] shapeletWitnessParams
    (by omega) (by simp [shapeletWitnessParams]) (by simp [shapeletWitnessParams]) ?_
  intro i h1 h2
  have hi : i = 1 := by omega
  subst hi
  have hs : ("C" ++ toString 1) = "C1" := rfl
  rw [hs]
  simp [shapeletWitnessParams]

/-- Every successful leaf evaluation has one value per time sample. -/
theorem atomCall_length (expF : ℚ → ℚ) (a : FluxAtom) (time : List ℚ)
    (p : String → ℚ) (l : List ℚ) (h : a.call expF time p = some l) :
    l.length = time.length := by
  cases a with
  | base =>
    simp [FluxAtom.call] at h
    rw [← h]
    simp
  | shapelet keys =>
    simp [FluxAtom.call] at h
    rw [← h]
    simp [shapeletCall]
  | poly keys =>
    cases time with
    | nil => simp [FluxAtom.call, polyCall] at h
    | cons t0 rest =>
      simp [FluxAtom.call, polyCall] at h
      rw [← h]
      simp

/-- A successful collection of child evaluations has one row per child. -/
theorem atomCalls_length (expF : ℚ → ℚ) (time : List ℚ) (p : String → ℚ) :
    ∀ (models : List FluxAtom) (ls : List (List ℚ)),
      atomCalls expF models time p = some ls → ls.length = models.length := by
  intro models
  induction models with
  | nil =>
    intro ls h
    simp [atomCalls] at h
    subst h
    rfl
  | cons a rest ih =>
    intro ls h
    rw [atomCalls] at h
    cases hc : FluxAtom.call a expF time p with
    | none => rw [hc] at h; simp at h
    | some f =>
      rw [hc] at h
      cases hr : atomCalls expF rest time p with
      | none => rw [hr] at h; simp at h
      | some fs =>
        rw [hr] at h
        simp at h
        rw [← h]
        simp [ih fs hr]

/-- Every row of a successful collection of child evaluations has one value
per time sample. -/
theorem atomCalls_each_length (expF : ℚ → ℚ) (time : List ℚ) (p : String → ℚ) :
    ∀ (models : List FluxAtom) (ls : List (List ℚ)),
      atomCalls expF models time p = some ls →
      ∀ l ∈ ls, l.length = time.length := by
  intro models
  induction models with
  | nil =>
    intro ls h
    simp [atomCalls] at h
    subst h
    simp
  | cons a rest ih =>
    intro ls h
    rw [atomCalls] at h
    cases hc : FluxAtom.call a expF time p with
    | none => rw [hc] at h; simp at h
    | some f =>
      rw [hc] at h
      cases hr : atomCalls expF rest time p with
      | none => rw [hr] at h; simp at h
      | some fs =>
        rw [hr] at h
        simp at h
        rw [← h]
        intro l hl
        rcases List.mem_cons.mp hl with h1 | h2
        · rw [h1]
          exact atomCall_length expF a time p f hc
        · exact ih fs hr l h2

/-- Appending a `BaseFlux` child appends one row of zeros to the child
evaluations. -/
theorem atomCalls_append_base (expF : ℚ → ℚ) (time : List ℚ) (p : String → ℚ) :
    ∀ (models : List FluxAtom),
      atomCalls expF (models ++ [FluxAtom.base]) time p =
        (atomCalls expF models time p).map
          (fun ls => ls ++ [time.map (fun _ => (0 : ℚ))]) := by
  intro models
  induction models with
  | nil => rfl
  | cons a rest ih =>
    show atomCalls expF (a :: (rest ++ [FluxAtom.base])) time p = _
    rw [atomCalls, atomCalls, ih]
    cases hc : FluxAtom.call a expF time p with
    | none => rfl
    | some f =>
      cases hr : atomCalls expF rest time p with
      | none => rfl
      | some fs => rfl

/-- Adding zeros elementwise is the identity on a row of matching length. -/
theorem zipWith_add_zeros (time : List ℚ) :
    ∀ (l : List ℚ), l.length = time.length →
      List.zipWith (fun a b => a + b) l (time.map (fun _ => (0 : ℚ))) = l := by
  induction time with
  | nil =>
    intro l hl
    rw [List.length_nil, List.length_eq_zero] at hl
    rw [hl]
    rfl
  | cons t ts ih =>
    intro l hl
    cases l with
    | nil => rfl
    | cons a as =>
      simp only [List.map_cons, List.zipWith_cons_cons, add_zero]
      rw [ih as (by simpa using hl)]

/-- Appending a row of zeros does not change the elementwise sum of a
nonempty collection of equal-length rows. -/
theorem sumAxis0_append_zeros (time : List ℚ) :
    ∀ (ls : List (List ℚ)), ls ≠ [] →
      (∀ l ∈ ls, l.length = time.length) →
      sumAxis0 (ls ++ [time.map (fun _ => (0 : ℚ))]) = sumAxis0 ls := by
  intro ls
  induction ls with
  | nil => intro h; exact absurd rfl h
  | cons l rest ih =>
    intro _ hlen
    cases rest with
    | nil =>
      show sumAxis0 [l, time.map (fun _ => (0 : ℚ))] = sumAxis0 [l]
      have h1 : sumAxis0 [l, time.map (fun _ => (0 : ℚ))] =
          List.zipWith (fun a b => a + b) l (sumAxis0 [time.map (fun _ => (0 : ℚ))]) := rfl
      rw [h1]
      have h2 : sumAxis0 [time.map (fun _ => (0 : ℚ))] = time.map (fun _ => (0 : ℚ)) := rfl
      rw [h2, zipWith_add_zeros time l (hlen l (List.mem_cons_self l []))]
      rfl
    | cons l2 rest2 =>
      have h1 : sumAxis0 ((l :: l2 :: rest2) ++ [time.map (fun _ => (0 : ℚ))]) =
          List.zipWith (fun a b => a + b) l
            (sumAxis0 ((l2 :: rest2) ++ [time.map (fun _ => (0 : ℚ))])) := rfl
      have h2 : sumAxis0 (l :: l2 :: rest2) =
          List.zipWith (fun a b => a + b) l (sumAxis0 (l2 :: rest2)) := rfl
      rw [h1, h2, ih (by simp) (fun x hx => hlen x (List.mem_cons_of_mem l hx))]

/-- C6: a `JointFluxModel` evaluates to the elementwise sum of its children's
evaluations, and adding the zero model `BaseFlux` (via `__add__`) leaves its
output unchanged. -/
theorem jointFluxModel_sum_spec (expF : ℚ → ℚ) (m : JointFluxModel)
    (time : List ℚ) (p : String → ℚ) :
    (∀ ls, atomCalls expF m.models time p = some ls →
      m.call expF time p = some (sumAxis0 ls)) ∧
    (m.models ≠ [] →
      (m.addFlux (.single .base)).call expF time p = m.call expF time p) := by
  constructor
  · intro ls h
    unfold JointFluxModel.call
    rw [h]
    rfl
  · intro hne
    have hmodels : (m.addFlux (.single FluxAtom.base)).models =
        m.models ++ [FluxAtom.base] := rfl
    unfold JointFluxModel.call
    rw [hmodels, atomCalls_append_base]
    cases hc : atomCalls expF m.models time p with
    | none => rfl
    | some ls =>
      show some (sumAxis0 (ls ++ [time.map (fun _ => (0 : ℚ))])) = some (sumAxis0 ls)
      congr 1
      refine sumAxis0_append_zeros time ls ?_ (atomCalls_each_length expF time p m.models ls hc)
      intro habs
      rw [habs] at hc
      have := atomCalls_length expF time p m.models [] hc
      simp at this
      exact hne (List.length_eq_zero.mp this.symm)

/-- C6 witness: the two-child model `BaseFlux + ShapeletFlux` evaluated at
the single time `0` with all parameters `1` sums its children's rows, and
adding another `BaseFlux` leaves the output unchanged. -/
theorem jointFluxModel_sum_spec_witness :
    (JointFluxModel.mk [FluxAtom.base, FluxAtom.shapelet ["C0"]]).call
        (fun q => q) [0] (fun _ => 1) = some (sumAxis0 [[0], [-1]]) ∧
    ((JointFluxModel.mk [FluxAtom.base, FluxAtom.shapelet ["C0"]]).addFlux
        (.single .base)).call (fun q => q) [0] (fun _ => 1) =
      (JointFluxModel.mk [FluxAtom.base, FluxAtom.shapelet ["C0"]]).call
        (fun q => q) [0] (fun _ => 1) := by
  constructor
  · refine (jointFluxModel_sum_spec (fun q => q)
      (JointFluxModel.mk [FluxAtom.base, FluxAtom.shapelet ["C0"]]) [0] (fun _ => 1)).1
      [[0], [-1]] ?_
    norm_num [atomCalls, FluxAtom.call, shapeletCall, hermiteSeries, hermiteSum, hermiteH]
  · exact (jointFluxModel_sum_spec (fun q => q)
      (JointFluxModel.mk [FluxAtom.base, FluxAtom.shapelet ["C0"]]) [0] (fun _ => 1)).2
      (List.cons_ne_nil FluxAtom.base [FluxAtom.shapelet ["C0"]])
